import Mathlib

/-!
Verification of the compressinja HTML compressor (compressinja/html.py).

The embedding models the module faithfully, including its Python 2
runtime semantics where those are observable:

* the stack is a Python list, element 0 at the bottom and the last
  element on top; pop removes the last element and raises IndexError on
  an empty list;
* the search loop of leave_tag iterates over a live reversed-list
  iterator of the mutated stack: the iterator holds a descending index
  that is checked against the current list length on every step, so
  after a pop the loop keeps scanning (the source has no break after the
  inner pop loop);
* breaking_rules uses set(("li")), which in Python is the set of the
  two one-character strings "l" and "i", not the set containing "li";
* regular-expression semantics of _TAG_RE and _WS_NORMALIZE_RE are
  implemented as explicit scanners over character lists (the ASCII
  fragment of the Python character class for a backslash-s, which is
  what every claim exercises).

Recursions that are not structural in the source are given an explicit
fuel argument that provably never runs out for the bounds used by the
top-level entry points; exhaustion is surfaced as a distinct error value
so no theorem can silently depend on it.
-/

/-- Characters of _WS_NORMALIZE_RE, the class [ \t\r\n]. -/
def isWsChar (c : Char) : Bool :=
  c == ' ' || c == '\t' || c == '\r' || c == '\n'

/-- ASCII fragment of the Python regex class for a backslash-s, used by the
trailing whitespace eater of _TAG_RE. -/
def isPyWs (c : Char) : Bool :=
  c == ' ' || c == '\t' || c == '\n' || c == '\r' || c == '\x0b' || c == '\x0c'

/-- Characters of the tag-name class [a-zA-Z0-9_-] in _TAG_RE. -/
def isNameChar (c : Char) : Bool :=
  c.isAlpha || c.isDigit || c == '_' || c == '-'

/-- Scanner for _WS_NORMALIZE_RE.sub(repl, value): each maximal run of
[ \t\r\n] characters is replaced by repl.  The flag records whether the
previous character belonged to a run already replaced. -/
def wsSubAux (repl : List Char) : Bool → List Char → List Char
  | _, [] => []
  | prevWs, c :: rest =>
    if isWsChar c then
      (if prevWs then [] else repl) ++ wsSubAux repl true rest
    else
      c :: wsSubAux repl false rest

def wsSub (repl : List Char) (l : List Char) : List Char :=
  wsSubAux repl false l

/-- The call value.replace of the two-character pattern greater-than
space by the single character greater-than: scan left to right, drop the
space of every occurrence, and continue after the replacement. -/
def replaceGtSpace : List Char → List Char
  | [] => []
  | [c] => [c]
  | c :: d :: rest =>
    if c == '>' && d == ' ' then c :: replaceGtSpace rest
    else c :: replaceGtSpace (d :: rest)

def isolated_elements : List String :=
  ["script", "style", "noscript", "textarea", "pre"]

def void_elements : List String :=
  ["br", "img", "area", "hr", "param", "input", "embed", "col"]

def block_elements : List String :=
  ["div", "p", "form", "ul", "ol", "li", "td", "th",
   "dl", "dt", "dd", "blockquote", "h1", "h2", "h3",
   "h4", "h5", "h6", "title"]

/-- breaking_rules.get: the entry for "li" is set(("li")) in the source,
which iterates the string and yields the one-character strings. -/
def breaking_rules : String → Option (List String)
  | "p" => some ["div", "p", "form", "ul", "ol", "li", "table", "tr",
                 "tbody", "thead", "tfoot", "td", "th", "dl", "dt", "dd",
                 "blockquote", "h1", "h2", "h3", "h4", "h5", "h6"]
  | "li" => some ["l", "i"]
  | "td" => some ["td", "th", "tr", "tbody", "thead", "tfoot"]
  | "th" => some ["td", "th", "tr", "tbody", "thead", "tfoot"]
  | "tr" => some ["tr", "tbody", "thead", "tfoot"]
  | "tbody" => some ["tbody", "thead", "tfoot"]
  | "thead" => some ["tbody", "thead", "tfoot"]
  | "tfoot" => some ["tbody", "thead", "tfoot"]
  | "dd" => some ["dl", "dt", "dd"]
  | "dt" => some ["dl", "dt", "dd"]
  | _ => none

/-- Python truthiness of breaking_rules.get(tag): None and the empty set
are falsy. -/
def breakingTruthy (tag : String) : Bool :=
  match breaking_rules tag with
  | none => false
  | some l => !l.isEmpty

/-- is_isolated: some currently open tag is a preformatted tag. -/
def is_isolated (stack : List String) : Bool :=
  stack.any (fun t => isolated_elements.contains t)

/-- is_block: some currently open tag is a block tag. -/
def is_block (stack : List String) : Bool :=
  stack.any (fun t => block_elements.contains t)

/-- is_breaking: return breaking and tag in breaking. -/
def is_breaking (tag other_tag : String) : Bool :=
  match breaking_rules other_tag with
  | none => false
  | some l => !l.isEmpty && l.contains tag

/-- Errors arising inside the stack operations and the normalizer.
structural becomes a TemplateSyntaxError once the driver attaches the
line number; indexError models the uncaught IndexError of list.pop on an
empty list; fuelOut marks recursion-bound exhaustion and is unreachable
for the bounds used by the entry points. -/
inductive TagErr where
  | structural (msg : String)
  | indexError
  | fuelOut
deriving DecidableEq, Repr

/-- n sequential ctx.stack.pop() calls; pop on an empty Python list
raises IndexError. -/
def popTimes : Nat → List String → Except TagErr (List String)
  | 0, st => .ok st
  | _ + 1, [] => .error .indexError
  | n + 1, st => popTimes n st.dropLast

/-- The implicit-closure search loop of leave_tag.  n is the stack length
at loop entry; idx is the enumerate counter.  The live reversed iterator
reads index n - 1 - idx of the current (possibly shrunk) stack and stops
as soon as that index is out of range.  fuel starts at n + 1 and never
reaches zero before the loop stops. -/
def leaveLoop (tag : String) (n : Nat) : Nat → Nat → List String → Except TagErr (List String)
  | _, 0, st => .ok st
  | idx, fuel + 1, st =>
    if n ≤ idx then .ok st
    else
      match st.get? (n - 1 - idx) with
      | none => .ok st
      | some other_tag =>
        if other_tag == tag then
          match popTimes (idx + 1) st with
          | .error e => .error e
          | .ok st2 => leaveLoop tag n (idx + 1) fuel st2
        else if breakingTruthy other_tag then
          leaveLoop tag n (idx + 1) fuel st
        else
          .ok st

/-- leave_tag: remove a tag from the stack. -/
def leave_tag (tag : String) (st : List String) : Except TagErr (List String) :=
  if st.isEmpty then
    .error (.structural ("Tried to leave \"" ++ tag ++ "\" but something closed it already"))
  else if st.getLast? == some tag then
    .ok st.dropLast
  else
    leaveLoop tag st.length 0 (st.length + 1) st

/-- The implicit-closure cascade of enter_tag: while the stack is
non-empty and is_breaking holds of the top, invoke leave_tag on the top
element.  Each such call pops exactly one element, so a fuel of
length + 1 never runs out. -/
def enterLoop (tag : String) : Nat → List String → Except TagErr (List String)
  | 0, st => .ok st
  | fuel + 1, st =>
    match st.getLast? with
    | none => .ok st
    | some top =>
      if is_breaking tag top then
        match leave_tag top st with
        | .error e => .error e
        | .ok st2 => enterLoop tag fuel st2
      else
        .ok st

/-- tag.startswith of the single character bang. -/
def startsWithBang (tag : String) : Bool :=
  match tag.data with
  | '!' :: _ => true
  | _ => false

/-- enter_tag: add a tag to the stack after the implicit-closure
cascade, unless it is a void element or a declaration. -/
def enter_tag (tag : String) (st : List String) : Except TagErr (List String) :=
  match enterLoop tag (st.length + 1) st with
  | .error e => .error e
  | .ok st2 =>
    .ok (if !(void_elements.contains tag) && !(startsWithBang tag) then st2 ++ [tag] else st2)

/-- One match of _TAG_RE: either an opening bracket, an optional slash,
a name with an optional leading bang, and trailing whitespace, or a sole
closing bracket with trailing whitespace.  text is the full matched
fragment, exactly match.group(). -/
inductive TagTok where
  | openClose (closes : Bool) (name : String) (text : List Char)
  | sole (text : List Char)
deriving DecidableEq, Repr

def tokText : TagTok → List Char
  | .openClose _ _ t => t
  | .sole t => t

/-- Strip one leading occurrence of c, reporting whether it was there. -/
def stripLead (c : Char) : List Char → Bool × List Char
  | d :: r => if d == c then (true, r) else (false, d :: r)
  | [] => (false, [])

/-- Try to match _TAG_RE at the start of l; on success return the token
and the suffix after the match.  The first alternation branch needs the
opening bracket, the optional slash, the optional bang and at least one
name character; otherwise only a bare closing bracket matches. -/
def matchAt : List Char → Option (TagTok × List Char)
  | [] => none
  | c :: r =>
    if c == '<' then
      let s1 := stripLead '/' r
      let s2 := stripLead '!' s1.2
      let nm := s2.2.takeWhile isNameChar
      if nm.isEmpty then none
      else
        let afterName := s2.2.dropWhile isNameChar
        let ws := afterName.takeWhile isPyWs
        some (.openClose s1.1
                (String.mk ((if s2.1 then ['!'] else []) ++ nm))
                ('<' :: (if s1.1 then ['/'] else []) ++ (if s2.1 then ['!'] else []) ++ nm ++ ws),
              afterName.dropWhile isPyWs)
    else if c == '>' then
      some (.sole ('>' :: r.takeWhile isPyWs), r.dropWhile isPyWs)
    else
      none

/-- Leftmost match of _TAG_RE: the text before the match, the match and
the suffix after it. -/
def findMatch : List Char → Option (List Char × TagTok × List Char)
  | [] => none
  | c :: rest =>
    match matchAt (c :: rest) with
    | some (tok, after) => some ([], tok, after)
    | none =>
      match findMatch rest with
      | some (pre, tok, after) => some (c :: pre, tok, after)
      | none => none

/-- One character step of the in_tag scan over the output buffer. -/
def inTagStep (inside : Bool) (c : Char) : Bool :=
  if c == '<' then true else if c == '>' then false else inside

/-- in_tag: scan every fragment already in the output buffer. -/
def inTagBuf (buf : List (List Char)) : Bool :=
  buf.foldl (fun a frag => frag.foldl inTagStep a) false

/-- write_data: compress one data fragment against the current stack and
the fragments already emitted in this run. -/
def write_data (st : List String) (buf : List (List Char)) (value : List Char) : List Char :=
  if is_isolated st then value
  else if !is_block st && !inTagBuf buf then wsSub [] value
  else
    let v := wsSub [' '] value
    if !is_block st then replaceGtSpace v else v

/-- The finditer loop of normalize.  The buffer accumulates emitted
fragments; the result is the final buffer and stack.  Each iteration
consumes at least one character of rem, so a fuel of length + 1 is
enough. -/
def normalizeAux : Nat → List String → List (List Char) → List Char →
    Except TagErr (List (List Char) × List String)
  | 0, _, _, _ => .error .fuelOut
  | fuel + 1, st, buf, rem =>
    match findMatch rem with
    | none => .ok (buf ++ [write_data st buf rem], st)
    | some (pre, tok, rest) =>
      let buf1 := buf ++ [write_data st buf pre]
      match tok with
      | .sole txt =>
        normalizeAux fuel st (buf1 ++ [write_data st buf1 txt]) rest
      | .openClose closes nm txt =>
        match (if closes then leave_tag nm st else enter_tag nm st) with
        | .error e => .error e
        | .ok st2 => normalizeAux fuel st2 (buf1 ++ [txt]) rest

/-- normalize of the source (renamed, the plain name is taken by
Mathlib): minify one literal-text run against the given stack, returning
the rewritten text and the updated stack. -/
def normalizeRun (st : List String) (value : List Char) : Except TagErr (List Char × List String) :=
  match normalizeAux (value.length + 1) st [] value with
  | .error e => .error e
  | .ok (buf, st2) => .ok (buf.flatten, st2)

/-- One lexer token: jinja2 Token(lineno, type, value). -/
structure Token where
  lineno : Nat
  ttype : String
  value : String
deriving DecidableEq, Repr

/-- Errors of a whole filtering pass.  structural is a
TemplateSyntaxError with its message and line number; indexError and
attrError model the uncaught Python exceptions reachable in the source
(list.pop from an empty list, and attribute access on ctx.token when it
is still None); fuelOut marks an exhausted recursion bound and is
unreachable for the bounds used by the entry points. -/
inductive PyErr where
  | structural (msg : String) (lineno : Nat)
  | indexError
  | attrError
  | fuelOut
deriving DecidableEq, Repr

/-- Attach the line number of the current data token to a normalizer
error, as ctx.fail does for errors raised while normalizing. -/
def liftErr (lineno : Nat) : TagErr → PyErr
  | .structural msg => .structural msg lineno
  | .indexError => .indexError
  | .fuelOut => .fuelOut

/-- HtmlCompressor.filter_stream: normalize every data token against one
shared stack, pass all other tokens through. -/
def filterAux (stack : List String) : List Token → Except PyErr (List Token)
  | [] => .ok []
  | tok :: rest =>
    if tok.ttype == "data" then
      match normalizeRun stack tok.value.data with
      | .error e => .error (liftErr tok.lineno e)
      | .ok (out, stack2) =>
        match filterAux stack2 rest with
        | .error e => .error e
        | .ok outs => .ok (⟨tok.lineno, "data", String.mk out⟩ :: outs)
    else
      match filterAux stack rest with
      | .error e => .error e
      | .ok outs => .ok (tok :: outs)

def filter_stream (toks : List Token) : Except PyErr (List Token) :=
  filterAux [] toks

/-- stream.look(): the token after the current one, or the end-of-file
token once the stream is exhausted. -/
def lookHead : List Token → Token
  | t :: _ => t
  | [] => ⟨0, "eof", ""⟩

/-- Token.test of a name-colon-value expression: type and value must
both match. -/
def tokTestName (t : Token) (v : String) : Bool :=
  t.ttype == "name" && t.value == v

/-- ctx.fail: raise TemplateSyntaxError(message, self.token.lineno).
When ctx.token was never set it is None and the attribute access itself
raises, so no TemplateSyntaxError is produced. -/
def ctxFail (ctxTok : Option Token) (msg : String) : PyErr :=
  match ctxTok with
  | some t => .structural msg t.lineno
  | none => .attrError

/-- Boundary model of jinja2.lexer.describe_token, an external
collaborator: some human-readable rendering of the token. -/
def describe_token (t : Token) : String :=
  t.ttype

/-- SelectiveHtmlCompressor.filter_stream.  One call of selAux is one
iteration of the while loop: when checkMarker is true and the current
token opens a strip or endstrip marker, the three marker tokens are
consumed and the same iteration continues, without a second marker
check, at the token after them; then a data token is normalized when the
depth is positive, any other token passes through.  ctxTok is ctx.token,
set only when a data token is normalized.  Each iteration consumes at
least one token, so a fuel of length + 1 is enough. -/
def selAux : Nat → Bool → List String → Int → Option Token → List Token →
    Except PyErr (List Token)
  | _, _, _, _, _, [] => .ok []
  | 0, _, _, _, _, _ :: _ => .error .fuelOut
  | fuel + 1, checkMarker, stack, depth, ctxTok, tok :: rest =>
    if checkMarker && tok.ttype == "block_begin"
        && (tokTestName (lookHead rest) "strip" || tokTestName (lookHead rest) "endstrip") then
      match rest with
      | [] => .error .fuelOut
      | nameTok :: rest2 =>
        let depth2 : Int := if nameTok.value == "strip" then depth + 1 else depth - 1
        if nameTok.value != "strip" && depth2 < 0 then
          .error (ctxFail ctxTok "Unexpected tag endstrip")
        else if (lookHead rest2).ttype != "block_end" then
          .error (ctxFail ctxTok ("expected end of block, got " ++ describe_token (lookHead rest2)))
        else
          match rest2 with
          | [] => .error .fuelOut
          | _ :: rest3 => selAux fuel false stack depth2 ctxTok rest3
    else
      if depth > 0 && tok.ttype == "data" then
        match normalizeRun stack tok.value.data with
        | .error e => .error (liftErr tok.lineno e)
        | .ok (out, stack2) =>
          match selAux fuel true stack2 depth (some tok) rest with
          | .error e => .error e
          | .ok outs => .ok (⟨tok.lineno, "data", String.mk out⟩ :: outs)
      else
        match selAux fuel true stack depth ctxTok rest with
        | .error e => .error e
        | .ok outs => .ok (tok :: outs)

def selective_filter_stream (toks : List Token) : Except PyErr (List Token) :=
  selAux (toks.length + 1) true [] 0 none toks

/-- Specification-side decomposition of a text into its maximal runs of
characters of the same whitespace class, worded after the spec: a run is
a maximal contiguous sequence of [ \t\r\n] characters or of other
characters.  The fuel equals the length of the text and is always
enough. -/
def runsAux : Nat → List Char → List (List Char)
  | _, [] => []
  | 0, _ :: _ => []
  | fuel + 1, c :: rest =>
    (c :: rest.takeWhile (fun d => isWsChar d == isWsChar c))
      :: runsAux fuel (rest.dropWhile (fun d => isWsChar d == isWsChar c))

def wsRuns (l : List Char) : List (List Char) :=
  runsAux l.length l

/-- Specification-side rewrite: replace every maximal whitespace run by
repl and keep every other run. -/
def collapseRunsWith (repl : List Char) (l : List Char) : List Char :=
  ((wsRuns l).map (fun r => if r.all isWsChar then repl else r)).flatten

/-- The spec wording of collapsing: every maximal whitespace run becomes
a single space. -/
def collapseRuns (l : List Char) : List Char :=
  collapseRunsWith [' '] l

/-- The spec wording of deletion: every maximal whitespace run is
removed entirely. -/
def deleteRuns (l : List Char) : List Char :=
  collapseRunsWith [] l

/-- The non-whitespace characters of a text, in order. -/
def nonWs (l : List Char) : List Char :=
  l.filter (fun c => !isWsChar c)

/-- The hypothesis of the verbatim property: an isolated ancestor is
open on the stack at every step of the scan of this run.  The recursion
mirrors normalizeAux step for step, checking is_isolated on the stack in
force before each fragment. -/
def isoThrough : Nat → List String → List Char → Bool
  | 0, _, _ => false
  | fuel + 1, st, rem =>
    is_isolated st &&
      match findMatch rem with
      | none => true
      | some (_, .sole _, rest) => isoThrough fuel st rest
      | some (_, .openClose closes nm _, rest) =>
        match (if closes then leave_tag nm st else enter_tag nm st) with
        | .error _ => false
        | .ok st2 => isoThrough fuel st2 rest

def isoThroughRun (st : List String) (v : List Char) : Bool :=
  isoThrough (v.length + 1) st v

/-- The next character, if any, is not whitespace. -/
def okAfterWs (l : List Char) : Bool :=
  match l.head? with
  | some d => !isWsChar d
  | none => true

/-- A text is well spaced when its only whitespace characters are single
spaces with a non-whitespace successor (or the end of the text). -/
def wellSpaced : List Char → Bool
  | [] => true
  | c :: t => (if isWsChar c then c == ' ' && okAfterWs t else true) && wellSpaced t

/-- No occurrence of the two-character pattern greater-than space. -/
def gtHeadOk (a : Char) (l : List Char) : Bool :=
  match l.head? with
  | some d => !(a == '>' && d == ' ')
  | none => true

def noGtSp : List Char → Bool
  | [] => true
  | a :: l => gtHeadOk a l && noGtSp l

example : is_breaking "li" "li" = false := by decide

example : is_breaking "td" "td" = true := by decide

example : leave_tag "table" ["div", "td", "table", "td", "table", "td"] = .ok [] := by rfl

example : leave_tag "table" ["table", "td", "table", "td"] = .error .indexError := by rfl

example : enter_tag "li" ["li"] = .ok ["li", "li"] := by rfl

example : normalizeRun [] "<div class=\"test    tag\"></div>".data =
    .ok ("<div class=\"test tag\"></div>".data, []) := by rfl

example : normalizeRun [] "</ p>x".data = .ok ("</p>x".data, []) := by rfl

example : normalizeRun [] "</p>x".data =
    .error (.structural "Tried to leave \"p\" but something closed it already") := by rfl

example : normalizeRun [] "<table><td><table><td></table>".data = .error .indexError := by rfl

example : normalizeRun ["pre"] "a\n\t <b> c".data = .ok ("a\n\t <b> c".data, ["pre", "b"]) := by rfl

example : normalizeRun [] "<div>\n\r\t<p>test</p> </div>".data =
    .ok ("<div> <p>test</p> </div>".data, []) := by rfl

example : filter_stream [⟨1, "data", "<table><td><table><td></table>"⟩] =
    .error .indexError := by rfl

example : filter_stream [⟨5, "data", "<div></div></div>"⟩] =
    .error (.structural "Tried to leave \"div\" but something closed it already" 5) := by rfl

example : filter_stream [⟨1, "data", "<p></p>"⟩] = .ok [⟨1, "data", "<p></p>"⟩] := by rfl

example : selective_filter_stream
    [⟨1, "block_begin", "\x7b%"⟩, ⟨1, "name", "endstrip"⟩, ⟨1, "block_end", "%\x7d"⟩] =
    .error .attrError := by rfl

example : selective_filter_stream
    [⟨1, "block_begin", "\x7b%"⟩, ⟨1, "name", "strip"⟩, ⟨1, "block_end", "%\x7d"⟩,
     ⟨1, "data", "a  b"⟩,
     ⟨2, "block_begin", "\x7b%"⟩, ⟨2, "name", "endstrip"⟩, ⟨2, "block_end", "%\x7d"⟩,
     ⟨2, "data", "y"⟩,
     ⟨3, "block_begin", "\x7b%"⟩, ⟨3, "name", "endstrip"⟩, ⟨3, "block_end", "%\x7d"⟩] =
    .error (.structural "Unexpected tag endstrip" 1) := by rfl

example : selective_filter_stream
    [⟨1, "block_begin", "\x7b%"⟩, ⟨1, "name", "strip"⟩, ⟨1, "block_end", "%\x7d"⟩,
     ⟨1, "data", "<div>a  b</div>"⟩] =
    .ok [⟨1, "data", "<div>a b</div>"⟩] := by rfl

example : selective_filter_stream [⟨1, "data", "a  b"⟩] = .ok [⟨1, "data", "a  b"⟩] := by rfl

theorem wsSubAux_true_eq (repl : List Char) :
    ∀ l : List Char, wsSubAux repl true l = wsSubAux repl false (l.dropWhile isWsChar) := by
  intro l
  induction l with
  | nil => rfl
  | cons c rest ih =>
    by_cases h : isWsChar c = true
    · simp [wsSubAux, List.dropWhile, h, ih]
    · simp at h
      simp [wsSubAux, List.dropWhile, h]

theorem wsSubAux_nonws_append (repl : List Char) :
    ∀ t u : List Char, (∀ c ∈ t, isWsChar c = false) →
      wsSubAux repl false (t ++ u) = t ++ wsSubAux repl false u := by
  intro t
  induction t with
  | nil => intro u _; rfl
  | cons c t2 ih =>
    intro u h
    have hc : isWsChar c = false := h c (List.mem_cons_self c t2)
    simp only [List.cons_append, wsSubAux, hc, Bool.false_eq_true, if_false, List.append_eq]
    rw [ih u (fun d hd => h d (List.mem_cons_of_mem c hd))]

theorem all_takeWhile (p : Char → Bool) :
    ∀ l : List Char, (l.takeWhile p).all p = true := by
  intro l
  induction l with
  | nil => rfl
  | cons c rest ih =>
    by_cases h : p c = true
    · simp [List.takeWhile, h, ih]
    · simp at h
      simp [List.takeWhile, h]

theorem runsAux_fuel :
    ∀ (f1 : Nat) (l : List Char) (f2 : Nat),
      l.length ≤ f1 → l.length ≤ f2 → runsAux f1 l = runsAux f2 l := by
  intro f1
  induction f1 with
  | zero =>
    intro l f2 h1 _
    have : l = [] := List.length_eq_zero.mp (Nat.le_zero.mp h1)
    subst this
    cases f2 <;> rfl
  | succ s1 ih =>
    intro l f2 h1 h2
    cases l with
    | nil => cases f2 <;> rfl
    | cons c rest =>
      cases f2 with
      | zero => simp at h2
      | succ s2 =>
        simp only [runsAux]
        have hd : (rest.dropWhile (fun d => isWsChar d == isWsChar c)).length ≤ rest.length :=
          (List.dropWhile_sublist _).length_le
        simp only [List.length_cons] at h1 h2
        rw [ih _ s2 (by omega) (by omega)]

theorem wsSubAux_eq_runs (repl : List Char) :
    ∀ (n : Nat) (l : List Char), l.length ≤ n →
      wsSubAux repl false l =
        ((runsAux n l).map (fun r => if r.all isWsChar then repl else r)).flatten := by
  intro n
  induction n with
  | zero =>
    intro l h
    have : l = [] := List.length_eq_zero.mp (Nat.le_zero.mp h)
    subst this
    rfl
  | succ n ih =>
    intro l h
    cases l with
    | nil => rfl
    | cons c rest =>
      simp only [List.length_cons] at h
      by_cases hc : isWsChar c = true
      · have hg : (fun d => isWsChar d == isWsChar c) = (fun d => isWsChar d) := by
          funext d
          rw [hc]
          cases isWsChar d <;> rfl
        have hall : (c :: rest.takeWhile (fun d => isWsChar d)).all isWsChar = true := by
          simp only [List.all_cons, hc, Bool.true_and]
          exact all_takeWhile _ rest
        have hdlen : (rest.dropWhile (fun d => isWsChar d)).length ≤ n :=
          Nat.le_trans (List.dropWhile_sublist _).length_le (by omega)
        rw [show wsSubAux repl false (c :: rest) = repl ++ wsSubAux repl true rest from by
          simp [wsSubAux, hc]]
        rw [show runsAux (n + 1) (c :: rest) =
            (c :: rest.takeWhile (fun d => isWsChar d))
              :: runsAux n (rest.dropWhile (fun d => isWsChar d)) from by
          simp only [runsAux, hg]]
        simp only [List.map_cons, List.flatten_cons, if_pos hall]
        rw [wsSubAux_true_eq, ih _ hdlen]
      · simp only [Bool.not_eq_true] at hc
        have hg : (fun d => isWsChar d == isWsChar c) = (fun d => !isWsChar d) := by
          funext d
          rw [hc]
          cases isWsChar d <;> rfl
        have hall : (c :: rest.takeWhile (fun d => !isWsChar d)).all isWsChar = false := by
          simp [List.all_cons, hc]
        have hdlen : (rest.dropWhile (fun d => !isWsChar d)).length ≤ n :=
          Nat.le_trans (List.dropWhile_sublist _).length_le (by omega)
        have hmem : ∀ d ∈ rest.takeWhile (fun d => !isWsChar d), isWsChar d = false := by
          intro d hd
          have := List.all_eq_true.mp (all_takeWhile (fun d => !isWsChar d) rest) d hd
          simpa using this
        rw [show wsSubAux repl false (c :: rest) = c :: wsSubAux repl false rest from by
          simp [wsSubAux, hc]]
        rw [show runsAux (n + 1) (c :: rest) =
            (c :: rest.takeWhile (fun d => !isWsChar d))
              :: runsAux n (rest.dropWhile (fun d => !isWsChar d)) from by
          simp only [runsAux, hg]]
        have hne : ¬((c :: rest.takeWhile (fun d => !isWsChar d)).all isWsChar = true) := by
          rw [hall]
          exact Bool.false_ne_true
        simp only [List.map_cons, List.flatten_cons, if_neg hne]
        conv_lhs =>
          rw [show rest = rest.takeWhile (fun d => !isWsChar d)
                ++ rest.dropWhile (fun d => !isWsChar d) from
              (List.takeWhile_append_dropWhile (fun d => !isWsChar d) rest).symm]
        rw [wsSubAux_nonws_append repl _ _ hmem, ih _ hdlen]
        rfl

/-- The sub call of the source equals the run-by-run rewrite worded
after the spec. -/
theorem wsSub_eq_collapseRunsWith (repl : List Char) (l : List Char) :
    wsSub repl l = collapseRunsWith repl l :=
  wsSubAux_eq_runs repl l.length l (Nat.le_refl _)

example : collapseRuns "a \t b".data = "a b".data := by rfl

example : deleteRuns "a \t b".data = "ab".data := by rfl

theorem breaking_rules_nonempty (t : String) (l : List String)
    (h : breaking_rules t = some l) : l.isEmpty = false := by
  unfold breaking_rules at h
  split at h <;> first
  | (cases h; rfl)
  | exact Option.noConfusion h

theorem getLast?_mem_self {l : List String} {x : String} (h : l.getLast? = some x) : x ∈ l := by
  obtain ⟨hne, hx⟩ := List.mem_getLast?_eq_getLast (l := l) (x := x) h
  rw [hx]
  exact List.getLast_mem hne

theorem leaveLoop_no_match (tag : String) (st : List String)
    (hmem : tag ∉ st) (hbr : ∀ t ∈ st, breaking_rules t ≠ none) :
    ∀ (fuel idx : Nat), leaveLoop tag st.length idx fuel st = .ok st := by
  intro fuel
  induction fuel with
  | zero => intro idx; rfl
  | succ f ih =>
    intro idx
    rw [show leaveLoop tag st.length idx (f + 1) st =
        (if st.length ≤ idx then .ok st
         else
           match st.get? (st.length - 1 - idx) with
           | none => .ok st
           | some other_tag =>
             if other_tag == tag then
               match popTimes (idx + 1) st with
               | .error e => .error e
               | .ok st2 => leaveLoop tag st.length (idx + 1) f st2
             else if breakingTruthy other_tag then
               leaveLoop tag st.length (idx + 1) f st
             else
               .ok st) from rfl]
    by_cases hidx : st.length ≤ idx
    · rw [if_pos hidx]
    · rw [if_neg hidx]
      have hlt : st.length - 1 - idx < st.length := by omega
      rw [List.get?_eq_get hlt]
      have hx : st.get ⟨st.length - 1 - idx, hlt⟩ ∈ st := st.get_mem _ _
      have hxne : (st.get ⟨st.length - 1 - idx, hlt⟩ == tag) = false :=
        beq_eq_false_iff_ne.mpr (fun h => hmem (h ▸ hx))
      have hxbr : breakingTruthy (st.get ⟨st.length - 1 - idx, hlt⟩) = true := by
        unfold breakingTruthy
        cases hbx : breaking_rules (st.get ⟨st.length - 1 - idx, hlt⟩) with
        | none => exact absurd hbx (hbr _ hx)
        | some l => simp [breaking_rules_nonempty _ l hbx]
      simp only [hxne, Bool.false_eq_true, if_false, hxbr, if_true]
      exact ih (idx + 1)

/-- C10: closing a tag that occurs nowhere on a non-empty stack, when
every scanned element has a breaking-rules entry, is silently ignored:
no error, stack unchanged. -/
theorem C10_unknown_close_ignored (tag : String) (st : List String)
    (hne : st ≠ []) (hmem : tag ∉ st) (hbr : ∀ t ∈ st, breaking_rules t ≠ none) :
    leave_tag tag st = .ok st := by
  have hempty : st.isEmpty = false := by
    cases st with
    | nil => exact absurd rfl hne
    | cons a l => rfl
  have hlast : (st.getLast? == some tag) = false := by
    cases hl : st.getLast? with
    | none => rfl
    | some x =>
      have hx : x ∈ st := getLast?_mem_self hl
      have hxne : x ≠ tag := fun h => hmem (h ▸ hx)
      simp [hxne]
  unfold leave_tag
  simp only [hempty, Bool.false_eq_true, if_false, hlast]
  exact leaveLoop_no_match tag st hmem hbr _ 0

/-- C10 witness: closing a span while only a td is open is a no-op. -/
theorem C10_witness :
    (["td"] : List String) ≠ [] ∧ "span" ∉ (["td"] : List String) ∧
      (∀ t ∈ (["td"] : List String), breaking_rules t ≠ none) ∧
      leave_tag "span" ["td"] = .ok ["td"] :=
  ⟨by decide, by decide, by decide,
   C10_unknown_close_ignored "span" ["td"] (by decide) (by decide) (by decide)⟩

/-- C1 counterexample: the claim fails as stated.  breaking_rules maps
li to the two one-character strings, so entering li with li innermost
does not close the previous li; entering td with tr innermost does not
close the tr either. -/
theorem C1_counterexample :
    is_breaking "li" "li" = false ∧
      enter_tag "li" ["li"] = .ok ["li", "li"] ∧
      enter_tag "td" ["tr"] = .ok ["tr", "td"] ∧
      breaking_rules "li" = some ["l", "i"] :=
  ⟨rfl, rfl, rfl, rfl⟩

theorem leave_tag_top (top : String) (st : List String) (hlast : st.getLast? = some top) :
    leave_tag top st = .ok st.dropLast := by
  have hempty : st.isEmpty = false := by
    cases st with
    | nil => exact Option.noConfusion hlast
    | cons a l => rfl
  unfold leave_tag
  simp [hempty, hlast]

/-- C1 amended: while the stack is non-empty and is_breaking holds of
the newly opened tag and the innermost element, that innermost element
is implicitly closed through leave_tag before the new tag is considered
for pushing; one cascade step rewrites enter_tag on the popped stack. -/
theorem C1_enter_breaking_closes_top (tag top : String) (st : List String)
    (hlast : st.getLast? = some top) (hbr : is_breaking tag top = true) :
    enter_tag tag st = enter_tag tag st.dropLast := by
  have hne : st ≠ [] := by
    intro h
    subst h
    exact Option.noConfusion hlast
  have hlv : leave_tag top st = .ok st.dropLast := leave_tag_top top st hlast
  have hstep : ∀ k, enterLoop tag (k + 1) st = enterLoop tag k st.dropLast := by
    intro k
    rw [show enterLoop tag (k + 1) st =
        (match st.getLast? with
         | none => .ok st
         | some top2 =>
           if is_breaking tag top2 then
             match leave_tag top2 st with
             | .error e => .error e
             | .ok st2 => enterLoop tag k st2
           else
             .ok st) from rfl]
    rw [hlast]
    simp only [hbr, if_true]
    rw [hlv]
  have hlen : st.length + 1 = st.dropLast.length + 1 + 1 := by
    rw [List.length_dropLast]
    have : 0 < st.length := List.length_pos.mpr hne
    omega
  unfold enter_tag
  rw [hlen, hstep]

/-- C1 witness: entering td with td innermost closes the previous td
through the cascade step. -/
theorem C1_witness :
    (["li", "td"] : List String).getLast? = some "td" ∧ is_breaking "td" "td" = true ∧
      enter_tag "td" ["li", "td"] = enter_tag "td" ["li"] ∧
      enter_tag "td" ["td"] = .ok ["td"] :=
  ⟨rfl, rfl, C1_enter_breaking_closes_top "td" "td" ["li", "td"] rfl rfl, rfl⟩

/-- C2: a plain data token drives leave_tag into the post-pop scan of
its live reversed iterator, which pops from an already empty list; the
escaping exception is an IndexError, not a StructuralError. -/
theorem C2_uncaught_index_error :
    filter_stream [⟨1, "data", "<table><td><table><td></table>"⟩] = .error .indexError ∧
      ∀ (msg : String) (lineno : Nat), (PyErr.indexError : PyErr) ≠ .structural msg lineno :=
  ⟨rfl, fun _ _ h => PyErr.noConfusion h⟩

/-- C3: on a data fragment with no isolated ancestor and not inside a
tag, every maximal whitespace run is replaced by a single space when a
block ancestor is open and deleted entirely otherwise. -/
theorem C3_write_data_runs (st : List String) (buf : List (List Char)) (v : List Char)
    (hiso : is_isolated st = false) (htag : inTagBuf buf = false) :
    write_data st buf v = if is_block st then collapseRuns v else deleteRuns v := by
  unfold write_data
  by_cases hb : is_block st = true
  · simp only [hiso, Bool.false_eq_true, if_false, hb, Bool.not_true, Bool.false_and,
      if_true]
    rw [wsSub_eq_collapseRunsWith]
    rfl
  · simp only [Bool.not_eq_true] at hb
    simp only [hiso, Bool.false_eq_true, if_false, hb, htag, Bool.not_false, Bool.and_self,
      if_true]
    rw [wsSub_eq_collapseRunsWith]
    rfl

/-- C3 witness: under an open div the runs collapse to single spaces;
under an open table they are deleted. -/
theorem C3_witness :
    is_isolated ["div"] = false ∧ inTagBuf [] = false ∧ is_isolated ["table"] = false ∧
      write_data ["div"] [] "a \t\nb  c".data = collapseRuns "a \t\nb  c".data ∧
      write_data ["table"] [] "a \t\nb  c".data = deleteRuns "a \t\nb  c".data :=
  ⟨rfl, rfl, rfl,
   C3_write_data_runs ["div"] [] "a \t\nb  c".data rfl rfl,
   C3_write_data_runs ["table"] [] "a \t\nb  c".data rfl rfl⟩

/-- C6: leaving a tag with nothing open raises the StructuralError with
the documented message, surfaced by the stream filter with the line
number of the data token; the input of three closing divs after two
opens fails exactly this way. -/
theorem C6_close_on_empty_stack :
    (∀ tag : String, leave_tag tag [] =
      .error (.structural ("Tried to leave \"" ++ tag ++ "\" but something closed it already"))) ∧
      filter_stream [⟨5, "data", "<div></div></div>"⟩] =
        .error (.structural "Tried to leave \"div\" but something closed it already" 5) :=
  ⟨fun _ => rfl, rfl⟩

/-- C7: the search loop does not stop after its first find.  On the
six-element stack the first find pops two elements but the scan then
continues on the shrunk stack, finds the lower table again and pops
four more, returning an empty stack instead of the four lower elements;
on the four-element stack the second find asks for four pops from a
two-element stack and the pop from the emptied list raises IndexError. -/
theorem C7_leave_search_overpops :
    leave_tag "table" ["div", "td", "table", "td", "table", "td"] = .ok [] ∧
      ([] : List String) ≠ ["div", "td", "table", "td"] ∧
      leave_tag "table" ["table", "td", "table", "td"] = .error .indexError :=
  ⟨rfl, by decide, rfl⟩

theorem stripLead_decomp (c : Char) (l : List Char) :
    l = (if (stripLead c l).1 then [c] else []) ++ (stripLead c l).2 := by
  cases l with
  | nil => rfl
  | cons d r =>
    by_cases h : (d == c) = true
    · have hd : d = c := eq_of_beq h
      subst hd
      simp [stripLead, h]
    · simp only [Bool.not_eq_true] at h
      simp [stripLead, h]

theorem matchAt_decomp :
    ∀ (l : List Char) (tok : TagTok) (after : List Char),
      matchAt l = some (tok, after) → l = tokText tok ++ after ∧ tokText tok ≠ [] := by
  intro l tok after h
  cases l with
  | nil => exact Option.noConfusion h
  | cons c r =>
    simp only [matchAt] at h
    by_cases h1 : (c == '<') = true
    · have hc : c = '<' := eq_of_beq h1
      subst hc
      rw [if_pos h1] at h
      try simp only at h
      rcases hs1 : stripLead '/' r with ⟨b1, r1⟩
      rw [hs1] at h
      try simp only at h
      rcases hs2 : stripLead '!' r1 with ⟨b2, r2⟩
      rw [hs2] at h
      try simp only at h
      by_cases hnm : (r2.takeWhile isNameChar).isEmpty = true
      · rw [if_pos hnm] at h
        exact Option.noConfusion h
      · rw [if_neg hnm] at h
        injection h with h2
        rw [Prod.mk.injEq] at h2
        obtain ⟨htok, hafter⟩ := h2
        subst htok
        subst hafter
        constructor
        · simp only [tokText, List.cons_append]
          congr 1
          have e1 : r = (if b1 then ['/'] else []) ++ r1 := by
            have := stripLead_decomp '/' r
            rw [hs1] at this
            exact this
          have e2 : r1 = (if b2 then ['!'] else []) ++ r2 := by
            have := stripLead_decomp '!' r1
            rw [hs2] at this
            exact this
          have e3 : r2 = r2.takeWhile isNameChar ++ r2.dropWhile isNameChar :=
            (List.takeWhile_append_dropWhile isNameChar r2).symm
          have e4 : r2.dropWhile isNameChar =
              (r2.dropWhile isNameChar).takeWhile isPyWs
                ++ (r2.dropWhile isNameChar).dropWhile isPyWs :=
            (List.takeWhile_append_dropWhile isPyWs (r2.dropWhile isNameChar)).symm
          conv_lhs => rw [e1, e2, e3, e4]
          simp [List.append_assoc]
        · simp [tokText]
    · rw [if_neg (by simpa using h1)] at h
      by_cases h2 : (c == '>') = true
      · have hc : c = '>' := eq_of_beq h2
        subst hc
        rw [if_pos h2] at h
        injection h with h3
        rw [Prod.mk.injEq] at h3
        obtain ⟨htok, hafter⟩ := h3
        subst htok
        subst hafter
        constructor
        · simp only [tokText, List.cons_append]
          congr 1
          exact (List.takeWhile_append_dropWhile isPyWs r).symm
        · simp [tokText]
      · rw [if_neg (by simpa using h2)] at h
        exact Option.noConfusion h

theorem findMatch_decomp :
    ∀ (l pre : List Char) (tok : TagTok) (after : List Char),
      findMatch l = some (pre, tok, after) →
        l = pre ++ tokText tok ++ after ∧ tokText tok ≠ [] := by
  intro l
  induction l with
  | nil => intro pre tok after h; exact Option.noConfusion h
  | cons c rest ih =>
    intro pre tok after h
    simp only [findMatch] at h
    cases hm : matchAt (c :: rest) with
    | some pr =>
      rw [hm] at h
      injection h with h2
      rw [Prod.mk.injEq] at h2
      obtain ⟨hpre, h3⟩ := h2
      rw [Prod.mk.injEq] at h3
      obtain ⟨htok, hafter⟩ := h3
      subst hpre
      subst htok
      subst hafter
      obtain ⟨hd, hne⟩ := matchAt_decomp (c :: rest) pr.1 pr.2 (by rw [hm])
      exact ⟨by simpa using hd, hne⟩
    | none =>
      rw [hm] at h
      cases hf : findMatch rest with
      | none => rw [hf] at h; exact Option.noConfusion h
      | some pr =>
        rw [hf] at h
        injection h with h2
        rw [Prod.mk.injEq] at h2
        obtain ⟨hpre, h3⟩ := h2
        rw [Prod.mk.injEq] at h3
        obtain ⟨htok, hafter⟩ := h3
        subst hpre
        subst htok
        subst hafter
        obtain ⟨hd, hne⟩ := ih pr.1 pr.2.1 pr.2.2 (by rw [hf])
        constructor
        · simp only [List.cons_append]
          rw [← hd]
        · exact hne

theorem nonWs_append (a b : List Char) : nonWs (a ++ b) = nonWs a ++ nonWs b :=
  List.filter_append _ _

theorem nonWs_all_ws (repl : List Char) (h : ∀ c ∈ repl, isWsChar c = true) :
    nonWs repl = [] := by
  unfold nonWs
  rw [List.filter_eq_nil_iff]
  intro c hc
  simp [h c hc]

theorem nonWs_wsSubAux (repl : List Char) (hrepl : ∀ c ∈ repl, isWsChar c = true) :
    ∀ (l : List Char) (b : Bool), nonWs (wsSubAux repl b l) = nonWs l := by
  intro l
  induction l with
  | nil => intro b; rfl
  | cons c rest ih =>
    intro b
    by_cases hc : isWsChar c = true
    · simp only [wsSubAux, hc, if_true, nonWs_append]
      rw [nonWs_all_ws _ (by intro d hd; cases b <;> simp_all), ih true]
      simp only [nonWs, List.filter_cons, hc, Bool.not_true, Bool.false_eq_true, if_false,
        List.nil_append]
    · simp only [Bool.not_eq_true] at hc
      simp only [wsSubAux, hc, Bool.false_eq_true, if_false]
      simp only [nonWs, List.filter_cons, hc, Bool.not_false, if_true]
      rw [show (wsSubAux repl false rest).filter (fun c => !isWsChar c) = nonWs (wsSubAux repl false rest) from rfl]
      rw [show rest.filter (fun c => !isWsChar c) = nonWs rest from rfl]
      rw [ih false]

theorem nonWs_cons (c : Char) (l : List Char) :
    nonWs (c :: l) = if isWsChar c = true then nonWs l else c :: nonWs l := by
  simp only [nonWs, List.filter_cons]
  cases h : isWsChar c <;> simp [h]

theorem nonWs_replaceGtSpace :
    ∀ (n : Nat) (l : List Char), l.length ≤ n → nonWs (replaceGtSpace l) = nonWs l := by
  intro n
  induction n with
  | zero =>
    intro l h
    have : l = [] := List.length_eq_zero.mp (Nat.le_zero.mp h)
    subst this
    rfl
  | succ n ih =>
    intro l h
    match l with
    | [] => rfl
    | [c] => rfl
    | c :: d :: t =>
      simp only [List.length_cons] at h
      by_cases hcd : (c == '>' && d == ' ') = true
      · have hc : c = '>' := eq_of_beq (Bool.and_elim_left hcd)
        have hd : d = ' ' := eq_of_beq (Bool.and_elim_right hcd)
        subst hc
        subst hd
        rw [show replaceGtSpace ('>' :: ' ' :: t) = '>' :: replaceGtSpace t from by
          simp [replaceGtSpace]]
        rw [nonWs_cons, nonWs_cons, nonWs_cons]
        simp only [show isWsChar '>' = false from rfl, show isWsChar ' ' = true from rfl,
          Bool.false_eq_true, if_false, if_true]
        rw [ih t (by omega)]
      · rw [show replaceGtSpace (c :: d :: t) = c :: replaceGtSpace (d :: t) from by
          simp [replaceGtSpace, hcd]]
        rw [nonWs_cons, nonWs_cons]
        rw [ih (d :: t) (by simp only [List.length_cons]; omega)]

theorem nonWs_write_data (st : List String) (buf : List (List Char)) (v : List Char) :
    nonWs (write_data st buf v) = nonWs v := by
  unfold write_data
  by_cases hiso : is_isolated st = true
  · rw [if_pos hiso]
  · simp only [Bool.not_eq_true] at hiso
    rw [if_neg (by simp [hiso])]
    by_cases hd : (!is_block st && !inTagBuf buf) = true
    · rw [if_pos hd]
      exact nonWs_wsSubAux [] (by intro c hc; cases hc) v false
    · rw [if_neg (by simp_all)]
      simp only
      by_cases hb : (!is_block st) = true
      · rw [if_pos hb]
        rw [nonWs_replaceGtSpace (wsSub [' '] v).length _ (Nat.le_refl _)]
        exact nonWs_wsSubAux [' '] (by intro c hc; simp at hc; subst hc; rfl) v false
      · rw [if_neg hb]
        exact nonWs_wsSubAux [' '] (by intro c hc; simp at hc; subst hc; rfl) v false

theorem normalizeAux_nonWs :
    ∀ (fuel : Nat) (st : List String) (buf : List (List Char)) (rem : List Char)
      (out : List (List Char)) (st2 : List String),
      normalizeAux fuel st buf rem = .ok (out, st2) →
      nonWs out.flatten = nonWs buf.flatten ++ nonWs rem := by
  intro fuel
  induction fuel with
  | zero => intro st buf rem out st2 h; exact Except.noConfusion h
  | succ fuel ih =>
    intro st buf rem out st2 h
    simp only [normalizeAux] at h
    cases hf : findMatch rem with
    | none =>
      rw [hf] at h
      injection h with h2
      rw [Prod.mk.injEq] at h2
      obtain ⟨hout, _⟩ := h2
      subst hout
      rw [List.flatten_append, nonWs_append]
      simp [nonWs_write_data]
    | some pr =>
      rw [hf] at h
      obtain ⟨pre, tok, rest⟩ := pr
      obtain ⟨hdec, -⟩ := findMatch_decomp rem pre tok rest hf
      simp only at h
      cases tok with
      | sole txt =>
        simp only at h
        have := ih st (buf ++ [write_data st buf pre]
            ++ [write_data st (buf ++ [write_data st buf pre]) txt]) rest out st2 (by rw [← h])
        rw [this, hdec]
        simp only [List.flatten_append, nonWs_append, List.flatten_cons, List.flatten_nil,
          List.append_nil, nonWs_write_data, tokText]
        simp [List.append_assoc]
      | openClose closes nm txt =>
        simp only at h
        cases hlv : (if closes then leave_tag nm st else enter_tag nm st) with
        | error e => rw [hlv] at h; exact Except.noConfusion h
        | ok st3 =>
          rw [hlv] at h
          have := ih st3 (buf ++ [write_data st buf pre] ++ [txt]) rest out st2 (by rw [← h])
          rw [this, hdec]
          simp only [List.flatten_append, nonWs_append, List.flatten_cons, List.flatten_nil,
            List.append_nil, nonWs_write_data, tokText]
          simp [List.append_assoc]

/-- C4 amended: the normalizer never alters non-whitespace characters
anywhere in a run, attribute values included; whatever it returns has
exactly the non-whitespace characters of the input, in order.  (The
whitespace inside attribute values, however, is rewritten like any other
data; see the counterexample.) -/
theorem C4_nonws_preserved (st : List String) (v out : List Char) (st2 : List String)
    (h : normalizeRun st v = .ok (out, st2)) :
    nonWs out = nonWs v := by
  unfold normalizeRun at h
  cases hn : normalizeAux (v.length + 1) st [] v with
  | error e => rw [hn] at h; exact Except.noConfusion h
  | ok p =>
    rw [hn] at h
    injection h with h2
    rw [Prod.mk.injEq] at h2
    obtain ⟨hout, -⟩ := h2
    subst hout
    have := normalizeAux_nonWs (v.length + 1) st [] v p.1 p.2 (by rw [hn])
    simpa using this

/-- C4 counterexample: the characters inside the quoted attribute value
do not appear unchanged; the run of four spaces in class="test    tag"
is collapsed to one. -/
theorem C4_counterexample :
    normalizeRun [] "<div class=\"test    tag\"></div>".data =
      .ok ("<div class=\"test tag\"></div>".data, []) ∧
      "<div class=\"test tag\"></div>".data ≠ "<div class=\"test    tag\"></div>".data :=
  ⟨rfl, by decide⟩

/-- C4 witness: the non-whitespace characters of the attribute example
survive normalization unchanged. -/
theorem C4_witness :
    normalizeRun [] "<div class=\"test    tag\"></div>".data =
      .ok ("<div class=\"test tag\"></div>".data, []) ∧
      nonWs "<div class=\"test tag\"></div>".data =
        nonWs "<div class=\"test    tag\"></div>".data :=
  ⟨rfl, C4_nonws_preserved [] "<div class=\"test    tag\"></div>".data
    "<div class=\"test tag\"></div>".data [] rfl⟩

theorem write_data_isolated (st : List String) (buf : List (List Char)) (v : List Char)
    (h : is_isolated st = true) : write_data st buf v = v := by
  unfold write_data
  rw [if_pos h]

theorem normalizeAux_isolated :
    ∀ (fuel : Nat) (st : List String) (buf : List (List Char)) (rem : List Char),
      isoThrough fuel st rem = true →
      ∃ (out : List (List Char)) (st2 : List String),
        normalizeAux fuel st buf rem = .ok (out, st2) ∧ out.flatten = buf.flatten ++ rem := by
  intro fuel
  induction fuel with
  | zero => intro st buf rem h; exact Bool.noConfusion h
  | succ fuel ih =>
    intro st buf rem h
    simp only [isoThrough, Bool.and_eq_true] at h
    obtain ⟨hiso, hrest⟩ := h
    cases hf : findMatch rem with
    | none =>
      refine ⟨buf ++ [write_data st buf rem], st, ?_, ?_⟩
      · simp only [normalizeAux, hf]
      · rw [write_data_isolated st buf rem hiso]
        simp [List.flatten_append]
    | some pr =>
      obtain ⟨pre, tok, rest⟩ := pr
      obtain ⟨hdec, -⟩ := findMatch_decomp rem pre tok rest hf
      rw [hf] at hrest
      cases tok with
      | sole txt =>
        simp only at hrest
        obtain ⟨out, st2, hok, hfl⟩ := ih st
          (buf ++ [write_data st buf pre]
            ++ [write_data st (buf ++ [write_data st buf pre]) txt]) rest hrest
        refine ⟨out, st2, ?_, ?_⟩
        · simp only [normalizeAux, hf]
          rw [show buf ++ [write_data st buf pre]
              ++ [write_data st (buf ++ [write_data st buf pre]) txt] =
            (buf ++ [write_data st buf pre])
              ++ [write_data st (buf ++ [write_data st buf pre]) txt] from by simp] at hok
          exact hok
        · rw [hfl, hdec]
          rw [write_data_isolated st buf pre hiso, write_data_isolated st _ txt hiso]
          simp only [List.flatten_append, List.flatten_cons, List.flatten_nil,
            List.append_nil, tokText]
          simp [List.append_assoc]
      | openClose closes nm txt =>
        simp only at hrest
        cases hlv : (if closes then leave_tag nm st else enter_tag nm st) with
        | error e => rw [hlv] at hrest; exact Bool.noConfusion hrest
        | ok st3 =>
          rw [hlv] at hrest
          obtain ⟨out, st2, hok, hfl⟩ := ih st3 (buf ++ [write_data st buf pre] ++ [txt])
            rest hrest
          refine ⟨out, st2, ?_, ?_⟩
          · simp only [normalizeAux, hf]
            rw [hlv]
            rw [show buf ++ [write_data st buf pre] ++ [txt] =
              (buf ++ [write_data st buf pre]) ++ [txt] from by simp] at hok
            exact hok
          · rw [hfl, hdec]
            rw [write_data_isolated st buf pre hiso]
            simp only [List.flatten_append, List.flatten_cons, List.flatten_nil,
              List.append_nil, tokText]
            simp [List.append_assoc]

/-- C5: when an isolated ancestor is open on the stack throughout the
run, the normalizer succeeds and its output is character for character
the input. -/
theorem C5_isolated_verbatim (st : List String) (v : List Char)
    (h : isoThroughRun st v = true) :
    ∃ st2, normalizeRun st v = .ok (v, st2) := by
  obtain ⟨out, st2, hok, hfl⟩ := normalizeAux_isolated (v.length + 1) st [] v h
  refine ⟨st2, ?_⟩
  unfold normalizeRun
  rw [hok]
  simpa using hfl

/-- C5 witness: under an open pre element a run with whitespace and an
interior tag comes back verbatim. -/
theorem C5_witness :
    isoThroughRun ["pre"] "a\n\t <b> c".data = true ∧
      ∃ st2, normalizeRun ["pre"] "a\n\t <b> c".data = .ok ("a\n\t <b> c".data, st2) :=
  ⟨rfl, C5_isolated_verbatim ["pre"] "a\n\t <b> c".data rfl⟩

theorem okAfterWs_wsSubAux_true :
    ∀ t : List Char, okAfterWs (wsSubAux [' '] true t) = true := by
  intro t
  induction t with
  | nil => rfl
  | cons c t ih =>
    by_cases hc : isWsChar c = true
    · simpa [wsSubAux, hc] using ih
    · simp only [Bool.not_eq_true] at hc
      simp [wsSubAux, hc, okAfterWs]

theorem wellSpaced_wsSubAux :
    ∀ (t : List Char) (b : Bool), wellSpaced (wsSubAux [' '] b t) = true := by
  intro t
  induction t with
  | nil => intro b; rfl
  | cons c t ih =>
    intro b
    by_cases hc : isWsChar c = true
    · cases b with
      | true => simpa [wsSubAux, hc] using ih true
      | false =>
        simp only [wsSubAux, hc, if_true, if_false, List.singleton_append]
        simp only [wellSpaced, Bool.and_eq_true]
        refine ⟨?_, ?_⟩
        · simp [okAfterWs_wsSubAux_true t]
        · exact ih true
    · simp only [Bool.not_eq_true] at hc
      simp only [wsSubAux, hc, Bool.false_eq_true, if_false]
      simp only [wellSpaced, Bool.and_eq_true]
      exact ⟨by simp [hc], ih false⟩

theorem wellSpaced_fix :
    ∀ x : List Char, wellSpaced x = true →
      wsSubAux [' '] false x = x ∧ (okAfterWs x = true → wsSubAux [' '] true x = x) := by
  intro x
  induction x with
  | nil => intro _; exact ⟨rfl, fun _ => rfl⟩
  | cons c t ih =>
    intro h
    simp only [wellSpaced, Bool.and_eq_true] at h
    obtain ⟨hcond, hws⟩ := h
    obtain ⟨ih1, ih2⟩ := ih hws
    by_cases hc : isWsChar c = true
    · rw [if_pos hc] at hcond
      simp only [Bool.and_eq_true] at hcond
      obtain ⟨hsp, hok⟩ := hcond
      have hce : c = ' ' := eq_of_beq hsp
      subst hce
      constructor
      · simp only [wsSubAux, hc, if_true, if_false, List.singleton_append]
        rw [ih2 hok]
        rfl
      · intro hbad
        simp [okAfterWs, hc] at hbad
    · simp only [Bool.not_eq_true] at hc
      constructor
      · simp only [wsSubAux, hc, Bool.false_eq_true, if_false]
        rw [ih1]
      · intro _
        simp only [wsSubAux, hc, Bool.false_eq_true, if_false]
        rw [ih1]

theorem replaceGtSpace_head :
    ∀ l : List Char, (replaceGtSpace l).head? = l.head? := by
  intro l
  match l with
  | [] => rfl
  | [c] => rfl
  | c :: d :: t =>
    by_cases hcd : (c == '>' && d == ' ') = true
    · simp [replaceGtSpace, hcd]
    · simp [replaceGtSpace, hcd]

theorem okAfterWs_replaceGtSpace (l : List Char) :
    okAfterWs (replaceGtSpace l) = okAfterWs l := by
  unfold okAfterWs
  rw [replaceGtSpace_head]

theorem wellSpaced_replaceGtSpace :
    ∀ (n : Nat) (x : List Char), x.length ≤ n → wellSpaced x = true →
      wellSpaced (replaceGtSpace x) = true := by
  intro n
  induction n with
  | zero =>
    intro x hl h
    have : x = [] := List.length_eq_zero.mp (Nat.le_zero.mp hl)
    subst this
    exact h
  | succ n ih =>
    intro x hl h
    match x with
    | [] => exact h
    | [c] => exact h
    | c :: d :: t =>
      simp only [List.length_cons] at hl
      simp only [wellSpaced, Bool.and_eq_true] at h
      obtain ⟨hc, hd, ht⟩ := h
      by_cases hcd : (c == '>' && d == ' ') = true
      · have hceq : c = '>' := eq_of_beq (Bool.and_elim_left hcd)
        have hdeq : d = ' ' := eq_of_beq (Bool.and_elim_right hcd)
        subst hceq
        subst hdeq
        rw [show replaceGtSpace ('>' :: ' ' :: t) = '>' :: replaceGtSpace t from by
          simp [replaceGtSpace]]
        simp only [wellSpaced, Bool.and_eq_true]
        refine ⟨by simp [isWsChar], ih t (by omega) ht⟩
      · rw [show replaceGtSpace (c :: d :: t) = c :: replaceGtSpace (d :: t) from by
          simp [replaceGtSpace, hcd]]
        simp only [wellSpaced, Bool.and_eq_true]
        constructor
        · by_cases hcw : isWsChar c = true
          · rw [if_pos hcw] at hc ⊢
            rw [okAfterWs_replaceGtSpace]
            exact hc
          · simp only [Bool.not_eq_true] at hcw
            simp [hcw]
        · exact ih (d :: t) (by simp only [List.length_cons]; omega)
            (by simp only [wellSpaced, Bool.and_eq_true]; exact ⟨hd, ht⟩)

theorem replaceGtSpace_fix :
    ∀ (n : Nat) (x : List Char), x.length ≤ n → noGtSp x = true → replaceGtSpace x = x := by
  intro n
  induction n with
  | zero =>
    intro x hl _
    have : x = [] := List.length_eq_zero.mp (Nat.le_zero.mp hl)
    subst this
    rfl
  | succ n ih =>
    intro x hl h
    match x with
    | [] => rfl
    | [c] => rfl
    | c :: d :: t =>
      simp only [List.length_cons] at hl
      simp only [noGtSp, gtHeadOk, List.head?_cons, Bool.and_eq_true] at h
      obtain ⟨hgt, h2, h3⟩ := h
      have hcd : (c == '>' && d == ' ') = false := by
        cases hb : (c == '>' && d == ' ') with
        | false => rfl
        | true => rw [hb] at hgt; exact Bool.noConfusion hgt
      rw [show replaceGtSpace (c :: d :: t) = c :: replaceGtSpace (d :: t) from by
        simp [replaceGtSpace, hcd]]
      rw [ih (d :: t) (by simp only [List.length_cons]; omega)
        (by simp only [noGtSp, Bool.and_eq_true]; exact ⟨h2, h3⟩)]

theorem noGtSp_replaceGtSpace :
    ∀ (n : Nat) (x : List Char), x.length ≤ n → wellSpaced x = true →
      noGtSp (replaceGtSpace x) = true := by
  intro n
  induction n with
  | zero =>
    intro x hl _
    have : x = [] := List.length_eq_zero.mp (Nat.le_zero.mp hl)
    subst this
    rfl
  | succ n ih =>
    intro x hl h
    match x with
    | [] => rfl
    | [c] => simp [replaceGtSpace, noGtSp, gtHeadOk]
    | c :: d :: t =>
      simp only [List.length_cons] at hl
      simp only [wellSpaced, Bool.and_eq_true] at h
      obtain ⟨hc, hd, ht⟩ := h
      by_cases hcd : (c == '>' && d == ' ') = true
      · have hceq : c = '>' := eq_of_beq (Bool.and_elim_left hcd)
        have hdeq : d = ' ' := eq_of_beq (Bool.and_elim_right hcd)
        subst hceq
        subst hdeq
        rw [show replaceGtSpace ('>' :: ' ' :: t) = '>' :: replaceGtSpace t from by
          simp [replaceGtSpace]]
        simp only [noGtSp, Bool.and_eq_true]
        constructor
        · rw [if_pos (by rfl)] at hd
          simp only [Bool.and_eq_true] at hd
          obtain ⟨-, hok⟩ := hd
          unfold gtHeadOk
          rw [replaceGtSpace_head]
          cases hh : t.head? with
          | none => rfl
          | some e =>
            unfold okAfterWs at hok
            rw [hh] at hok
            simp only [Bool.not_eq_true'] at hok
            have : (e == ' ') = false := by
              cases hb : (e == ' ') with
              | false => rfl
              | true =>
                have : e = ' ' := eq_of_beq hb
                subst this
                simp [isWsChar] at hok
            simp [this]
        · exact ih t (by omega) ht
      · rw [show replaceGtSpace (c :: d :: t) = c :: replaceGtSpace (d :: t) from by
          simp [replaceGtSpace, hcd]]
        simp only [noGtSp, Bool.and_eq_true]
        constructor
        · unfold gtHeadOk
          rw [replaceGtSpace_head]
          simp only [List.head?_cons]
          simp [hcd]
        · exact ih (d :: t) (by simp only [List.length_cons]; omega)
            (by simp only [wellSpaced, Bool.and_eq_true]; exact ⟨hd, ht⟩)

theorem wsSubAux_nil_filter :
    ∀ (l : List Char) (b : Bool), wsSubAux [] b l = l.filter (fun c => !isWsChar c) := by
  intro l
  induction l with
  | nil => intro b; rfl
  | cons c t ih =>
    intro b
    by_cases hc : isWsChar c = true
    · simp only [wsSubAux, hc, if_true, List.filter_cons, Bool.not_true, Bool.false_eq_true,
        if_false]
      cases b <;> simpa using ih true
    · simp only [Bool.not_eq_true] at hc
      simp only [wsSubAux, hc, Bool.false_eq_true, if_false, List.filter_cons, Bool.not_false,
        if_true]
      rw [ih false]

theorem filter_ws_idem (l : List Char) :
    (l.filter (fun c => !isWsChar c)).filter (fun c => !isWsChar c) =
      l.filter (fun c => !isWsChar c) := by
  induction l with
  | nil => rfl
  | cons c t ih =>
    by_cases hc : isWsChar c = true
    · simp [List.filter_cons, hc, ih]
    · simp only [Bool.not_eq_true] at hc
      simp [List.filter_cons, hc, ih]

/-- C8 amended: the per-fragment rewrite write_data is idempotent; for a
fixed stack and output-buffer state, applying it to its own output
changes nothing. -/
theorem C8_write_data_idem (st : List String) (buf : List (List Char)) (v : List Char) :
    write_data st buf (write_data st buf v) = write_data st buf v := by
  unfold write_data
  by_cases hiso : is_isolated st = true
  · simp [hiso]
  · simp only [Bool.not_eq_true] at hiso
    by_cases hdel : (!is_block st && !inTagBuf buf) = true
    · simp only [hiso, Bool.false_eq_true, if_false, hdel, if_true]
      unfold wsSub
      rw [wsSubAux_nil_filter, wsSubAux_nil_filter]
      exact filter_ws_idem v
    · simp only [hiso, Bool.false_eq_true, if_false, hdel]
      by_cases hb : (!is_block st) = true
      · simp only [hb, if_true]
        have hws : wellSpaced (wsSub [' '] v) = true := wellSpaced_wsSubAux v false
        have hws2 : wellSpaced (replaceGtSpace (wsSub [' '] v)) = true :=
          wellSpaced_replaceGtSpace (wsSub [' '] v).length _ (Nat.le_refl _) hws
        rw [show wsSub [' '] (replaceGtSpace (wsSub [' '] v))
            = replaceGtSpace (wsSub [' '] v) from (wellSpaced_fix _ hws2).1]
        exact replaceGtSpace_fix (replaceGtSpace (wsSub [' '] v)).length _ (Nat.le_refl _)
          (noGtSp_replaceGtSpace (wsSub [' '] v).length _ (Nat.le_refl _) hws)
      · simp only [hb, Bool.false_eq_true, if_false]
        exact (wellSpaced_fix _ (wellSpaced_wsSubAux v false)).1

/-- C8 counterexample: whitespace deletion fuses a bracket, a slash and
a following name into a new tag boundary, so the normalizer is not
idempotent: the first run succeeds and the second run on its own output,
from the same empty stack, raises StructuralError instead of returning
the output unchanged. -/
theorem C8_counterexample :
    normalizeRun [] "</ p>x".data = .ok ("</p>x".data, []) ∧
      normalizeRun [] "</p>x".data =
        .error (.structural "Tried to leave \"p\" but something closed it already") :=
  ⟨rfl, rfl⟩

/-- C9 counterexample: a lone endstrip marker with no previously
normalized data token aborts with an attribute error on the unset
context token (ctx.token is None inside ctx.fail), not with a
StructuralError carrying a message and line number. -/
theorem C9_counterexample :
    selective_filter_stream
      [⟨1, "block_begin", "\x7b%"⟩, ⟨1, "name", "endstrip"⟩, ⟨1, "block_end", "%\x7d"⟩] =
      .error .attrError ∧
      ∀ (msg : String) (lineno : Nat), (PyErr.attrError : PyErr) ≠ .structural msg lineno :=
  ⟨rfl, fun _ _ h => PyErr.noConfusion h⟩

/-- C9 amended: a deactivation marker reached with depth 0 makes the
filtering pass abort at once with ctx.fail of the message Unexpected tag
endstrip: a StructuralError carrying the line number of the most
recently normalized data token when one exists, and an attribute error
on the unset context token when none does. -/
theorem C9_endstrip_at_zero (fuel : Nat) (st : List String) (ctxTok : Option Token)
    (bb nt : Token) (rest : List Token)
    (hbb : bb.ttype = "block_begin") (hnt : nt.ttype = "name") (hnv : nt.value = "endstrip") :
    selAux (fuel + 1) true st 0 ctxTok (bb :: nt :: rest) =
      .error (ctxFail ctxTok "Unexpected tag endstrip") := by
  simp [selAux, tokTestName, lookHead, hbb, hnt, hnv]

/-- C9 witness: the amended statement at a concrete stream where a data
token on line 3 was normalized earlier. -/
theorem C9_witness :
    (⟨9, "block_begin", "\x7b%"⟩ : Token).ttype = "block_begin" ∧
      (⟨9, "name", "endstrip"⟩ : Token).ttype = "name" ∧
      (⟨9, "name", "endstrip"⟩ : Token).value = "endstrip" ∧
      selAux 1 true [] 0 (some ⟨3, "data", "x"⟩)
        [⟨9, "block_begin", "\x7b%"⟩, ⟨9, "name", "endstrip"⟩, ⟨9, "block_end", "%\x7d"⟩] =
        .error (.structural "Unexpected tag endstrip" 3) :=
  ⟨rfl, rfl, rfl,
   C9_endstrip_at_zero 0 [] (some ⟨3, "data", "x"⟩) ⟨9, "block_begin", "\x7b%"⟩
     ⟨9, "name", "endstrip"⟩ [⟨9, "block_end", "%\x7d"⟩] rfl rfl rfl⟩
